import Mathlib

/-!
Verification of the social-media sentiment-analysis data pipeline.

The development shallowly embeds the Python sources:
* `src/src/data/data_cleaner.py`   (`DataCleaner.clean_text_fast`, `DataCleaner.clean_dataset`)
* `src/src/data/data_collector.py` (`DataCollector.load_data`)
* `src/src/features/feature_engineering.py` (`FeatureEngineer`)
* `src/config/settings.py`         (`SENTIMENT_MAP`)

Strings are modelled as `List Char`; pandas data frames as lists of row
structures; Python exceptions as an explicit outcome type.  The two scanning
loops (the regex substitution and `str.split()`) recurse on an explicit fuel
bounded by the string length, so every definition evaluates inside the
kernel; congruence lemmas recover the natural recursion equations.
-/

namespace SMSA

/-- Strings are lists of characters. -/
abbrev Str := List Char

/-- Python `\s` whitespace class (ASCII part): space, tab, newline, CR, VT, FF. -/
def isWs (c : Char) : Bool :=
  c = ' ' || c = '\t' || c = '\n' || c = '\r' || c = '\x0b' || c = '\x0c'

/-- Lower-case ASCII letter, the `[a-z]` class of the cleaning regexes. -/
def isLowerAZ (c : Char) : Bool :=
  'a' ≤ c && c ≤ 'z'

/-- Python `\w` word-character class (ASCII part): letters, digits, underscore. -/
def isWordChar (c : Char) : Bool :=
  isLowerAZ c || ('A' ≤ c && c ≤ 'Z') || ('0' ≤ c && c ≤ '9') || c = '_'

/-- ASCII lower-casing of one character (`str.lower()` on the relevant range). -/
def lowerChar (c : Char) : Char :=
  if 'A' ≤ c && c ≤ 'Z' then Char.ofNat (c.toNat + 32) else c

/-- `str.lower()` over the whole string. -/
def lowerStr (s : Str) : Str := s.map lowerChar

/-- One attempt of the alternation `http\S+|www\S+|@\w+|#\w+` at the head of
the string: `some rest` returns the text after the (greedy) match, `none`
means no alternative matches at this position. -/
def tryMatch (s : Str) : Option Str :=
  match s with
  | 'h' :: 't' :: 't' :: 'p' :: c :: r =>
      if isWs c then none else some ((c :: r).dropWhile (fun d => !isWs d))
  | 'w' :: 'w' :: 'w' :: c :: r =>
      if isWs c then none else some ((c :: r).dropWhile (fun d => !isWs d))
  | '@' :: c :: r =>
      if isWordChar c then some ((c :: r).dropWhile isWordChar) else none
  | '#' :: c :: r =>
      if isWordChar c then some ((c :: r).dropWhile isWordChar) else none
  | _ => none

theorem dropWhile_length_le (p : Char → Bool) (l : Str) :
    (List.dropWhile p l).length ≤ l.length :=
  (List.dropWhile_sublist _).length_le

theorem tryMatch_some_length {s r : Str} (h : tryMatch s = some r) :
    r.length < s.length := by
  unfold tryMatch at h
  split at h
  next c t =>
    split at h
    · exact absurd h (by simp)
    · injection h with h
      subst h
      have := dropWhile_length_le (fun d => !isWs d) (c :: t)
      simp only [List.length_cons] at this ⊢
      omega
  next c t =>
    split at h
    · exact absurd h (by simp)
    · injection h with h
      subst h
      have := dropWhile_length_le (fun d => !isWs d) (c :: t)
      simp only [List.length_cons] at this ⊢
      omega
  next c t =>
    split at h
    · injection h with h
      subst h
      have := dropWhile_length_le isWordChar (c :: t)
      simp only [List.length_cons] at this ⊢
      omega
    · exact absurd h (by simp)
  next c t =>
    split at h
    · injection h with h
      subst h
      have := dropWhile_length_le isWordChar (c :: t)
      simp only [List.length_cons] at this ⊢
      omega
    · exact absurd h (by simp)
  next => exact absurd h (by simp)

/-- Fuel-driven scanner for `re.sub(r'http\S+|www\S+|@\w+|#\w+', '', text)`:
walk left to right, deleting every leftmost match of the alternation. -/
def stripSubF : Nat → Str → Str
  | 0, _ => []
  | _ + 1, [] => []
  | n + 1, c :: cs =>
    match tryMatch (c :: cs) with
    | some rest => stripSubF n rest
    | none => c :: stripSubF n cs

/-- `re.sub(r'http\S+|www\S+|@\w+|#\w+', '', text)`. -/
def stripSub (s : Str) : Str := stripSubF s.length s

theorem stripSubF_congr :
    ∀ n m (s : Str), s.length ≤ n → s.length ≤ m → stripSubF n s = stripSubF m s := by
  intro n
  induction n with
  | zero =>
    intro m s hs _
    have : s = [] := List.length_eq_zero.mp (Nat.le_zero.mp hs)
    subst this
    cases m <;> rfl
  | succ n ih =>
    intro m s hs hm
    cases s with
    | nil => cases m <;> rfl
    | cons c cs =>
      cases m with
      | zero => exact absurd hm (by simp)
      | succ m =>
        show stripSubF (n+1) (c::cs) = stripSubF (m+1) (c::cs)
        unfold stripSubF
        cases h : tryMatch (c :: cs) with
        | some rest =>
          have hr := tryMatch_some_length h
          simp only [List.length_cons] at hs hm hr
          exact ih m rest (by omega) (by omega)
        | none =>
          simp only [List.length_cons] at hs hm
          rw [ih m cs (by omega) (by omega)]

theorem stripSub_nil : stripSub [] = [] := rfl

theorem stripSub_cons_some {c : Char} {cs rest : Str}
    (h : tryMatch (c :: cs) = some rest) :
    stripSub (c :: cs) = stripSub rest := by
  have hr := tryMatch_some_length h
  show stripSubF (cs.length + 1) (c :: cs) = _
  unfold stripSubF
  rw [h]
  show stripSubF cs.length rest = _
  exact stripSubF_congr _ _ rest
    (by simp only [List.length_cons] at hr; omega) le_rfl

theorem stripSub_cons_none {c : Char} {cs : Str}
    (h : tryMatch (c :: cs) = none) :
    stripSub (c :: cs) = c :: stripSub cs := by
  show stripSubF (cs.length + 1) (c :: cs) = _
  unfold stripSubF
  rw [h]
  rfl

/-- `re.sub(r'[^a-z\s]', ' ', text)` on one character. -/
def toSpace (c : Char) : Char :=
  if isLowerAZ c || isWs c then c else ' '

/-- `re.sub(r'[^a-z\s]', ' ', text)` over the whole string. -/
def spacify (s : Str) : Str := s.map toSpace

/-- Fuel-driven splitter for Python `str.split()`: tokens separated by runs
of whitespace. -/
def wordsF : Nat → Str → List Str
  | 0, _ => []
  | _ + 1, [] => []
  | n + 1, c :: cs =>
    if isWs c then wordsF n cs
    else
      (c :: cs).takeWhile (fun d => !isWs d) ::
        wordsF n ((c :: cs).dropWhile (fun d => !isWs d))

/-- Python `str.split()`. -/
def words (s : Str) : List Str := wordsF s.length s

theorem wordsF_congr :
    ∀ n m (s : Str), s.length ≤ n → s.length ≤ m → wordsF n s = wordsF m s := by
  intro n
  induction n with
  | zero =>
    intro m s hs _
    have : s = [] := List.length_eq_zero.mp (Nat.le_zero.mp hs)
    subst this
    cases m <;> rfl
  | succ n ih =>
    intro m s hs hm
    cases s with
    | nil => cases m <;> rfl
    | cons c cs =>
      cases m with
      | zero => exact absurd hm (by simp)
      | succ m =>
        show wordsF (n+1) (c::cs) = wordsF (m+1) (c::cs)
        simp only [List.length_cons] at hs hm
        unfold wordsF
        by_cases h : isWs c
        · simp only [h, if_true]
          exact ih m cs (by omega) (by omega)
        · have hd : (List.dropWhile (fun d => !isWs d) (c :: cs)).length ≤ cs.length := by
            rw [List.dropWhile_cons_of_pos (by simp [h])]
            exact dropWhile_length_le _ _
          rw [if_neg h, if_neg h,
            ih m (List.dropWhile (fun d => !isWs d) (c :: cs)) (by omega) (by omega)]

theorem words_nil : words [] = [] := rfl

theorem words_cons_ws {c : Char} {cs : Str} (h : isWs c = true) :
    words (c :: cs) = words cs := by
  show wordsF (cs.length + 1) (c :: cs) = _
  unfold wordsF
  rw [if_pos h]
  exact wordsF_congr _ _ cs (by omega) le_rfl

theorem words_cons_nonws {c : Char} {cs : Str} (h : ¬ isWs c = true) :
    words (c :: cs) =
      (c :: cs).takeWhile (fun d => !isWs d) ::
        words ((c :: cs).dropWhile (fun d => !isWs d)) := by
  show wordsF (cs.length + 1) (c :: cs) = _
  unfold wordsF
  rw [if_neg h]
  have hd : (List.dropWhile (fun d => !isWs d) (c :: cs)).length ≤ cs.length := by
    rw [List.dropWhile_cons_of_pos (by simp [h])]
    exact dropWhile_length_le _ _
  rw [wordsF_congr cs.length (List.dropWhile (fun d => !isWs d) (c :: cs)).length _
    (by omega) le_rfl]
  rfl

/-- The stopword set built in `DataCleaner.__init__`. -/
def stopwords : List Str :=
  (["the", "a", "an", "and", "or", "but", "in", "on", "at", "to", "for",
    "of", "with", "by", "is", "am", "are", "was", "were", "be", "been",
    "have", "has", "had", "do", "does", "did", "will", "would", "could",
    "should", "may", "might", "must", "shall", "can", "this", "that",
    "these", "those", "i", "you", "he", "she", "it", "we", "they", "me",
    "him", "her", "us", "them", "my", "your", "his", "our", "their",
    "not", "no", "yes", "get", "got", "go", "going", "come", "came",
    "see", "saw", "make", "made", "take", "took", "say", "said", "know",
    "think", "want", "like", "look", "way", "time", "day", "good", "new"
   ].map String.toList)

/-- The word filter of `clean_text_fast`:
`word not in self.stopwords and len(word) > 2`. -/
def keepTok (w : Str) : Bool :=
  !(stopwords.contains w) && decide (2 < w.length)

/-- `' '.join(ws)`. -/
def joinSp (ws : List Str) : Str :=
  match ws with
  | [] => []
  | [w] => w
  | w :: ws' => w ++ ' ' :: joinSp ws'

/-- `DataCleaner.clean_text_fast`: lower-case, strip URL/mention/hashtag
tokens, replace non-letters by spaces, split, drop stopwords and words of
length at most 2, re-join with single spaces. -/
def clean_text_fast (s : Str) : Str :=
  if s = [] then []
  else joinSp (((words (spacify (stripSub (lowerStr s)))).filter keepTok))

/-! ### The data model of the cleaning stage -/

/-- A raw record as `DataCollector` delivers it: the `sentiment` label code
(0 negative / 2 neutral / 4 positive) and the `text` column (`none` models a
pandas NaN). The other CSV columns carry no logic. -/
structure Row where
  sentiment : Nat
  text : Option Str
deriving DecidableEq

/-- `SENTIMENT_MAP = {0: 'negative', 2: 'neutral', 4: 'positive'}` from
`config/settings.py`; `Series.map` yields NaN (`none`) off the map's keys. -/
def SENTIMENT_MAP (n : Nat) : Option String :=
  if n = 0 then some "negative"
  else if n = 2 then some "neutral"
  else if n = 4 then some "positive"
  else none

/-- A cleaned record: the columns of the frame `clean_dataset` returns. -/
structure CRow where
  sentiment : Nat
  text : Str
  cleaned_text : Str
  sentiment_label : Option String
deriving DecidableEq

/-- Python `str.strip()`: whitespace removed from both ends. -/
def pyStrip (s : Str) : Str :=
  ((s.dropWhile isWs).reverse.dropWhile isWs).reverse

/-- `drop_duplicates(subset=['cleaned_text'])` scanner: keep a record only
when its `cleaned_text` was not seen before (pandas keeps the first
occurrence by default). -/
def dropDupsBy : List CRow → List Str → List CRow
  | [], _ => []
  | r :: rs, seen =>
    if r.cleaned_text ∈ seen then dropDupsBy rs seen
    else r :: dropDupsBy rs (r.cleaned_text :: seen)

/-- `clean_df.drop_duplicates(subset=['cleaned_text'])`. -/
def drop_duplicates (l : List CRow) : List CRow := dropDupsBy l []

/-- Steps 1–4 of `DataCleaner.clean_dataset`: drop NaN texts, drop texts that
strip to the empty string, compute `cleaned_text`, drop records whose
cleaned text is empty, and attach the readable `sentiment_label`. -/
def preDedup (df : List Row) : List CRow :=
  let s1 := df.filter (fun r => r.text.isSome)
  let s2 := s1.filter (fun r => !(pyStrip (r.text.getD [])).isEmpty)
  let s3 := s2.map (fun r => (r, clean_text_fast (r.text.getD [])))
  let s4 := s3.filter (fun rc => decide (0 < rc.2.length))
  s4.map (fun rc =>
    { sentiment := rc.1.sentiment
      text := rc.1.text.getD []
      cleaned_text := rc.2
      sentiment_label := SENTIMENT_MAP rc.1.sentiment })

/-- `DataCleaner.clean_dataset` (steps 1–5; the index reset of step 6 and the
printed statistics do not change the rows). -/
def clean_dataset (df : List Row) : List CRow :=
  drop_duplicates (preDedup df)

/-- The spec's end-to-end example corpus. -/
def exampleCorpus : List Row :=
  [⟨4, some "I LOVE this!!! http://x.co #great".toList⟩,
   ⟨4, some "I love this".toList⟩,
   ⟨0, some "hate the bad movie".toList⟩]

/-- C1: on the corpus `["I LOVE this!!! http://x.co #great", "I love this",
"hate the bad movie"]` with labels `[positive, positive, negative]` the
normalizer produces `["love", "love", "hate bad movie"]`, and the
empty-removal/deduplication of `clean_dataset` keeps exactly the two records
`"love"`/positive (the first occurrence) and `"hate bad movie"`/negative. -/
theorem C1_end_to_end :
    (exampleCorpus.map (fun r => clean_text_fast (r.text.getD []))
      = ["love".toList, "love".toList, "hate bad movie".toList])
    ∧ clean_dataset exampleCorpus =
        [⟨4, "I LOVE this!!! http://x.co #great".toList, "love".toList, some "positive"⟩,
         ⟨0, "hate the bad movie".toList, "hate bad movie".toList, some "negative"⟩] := by
  constructor
  · decide
  · decide

/-! ### Deduplication invariants (C5) -/

theorem dropDupsBy_sublist :
    ∀ (l : List CRow) (seen : List Str), List.Sublist (dropDupsBy l seen) l := by
  intro l
  induction l with
  | nil => intro seen; exact List.Sublist.refl _
  | cons r rs ih =>
    intro seen
    unfold dropDupsBy
    by_cases h : r.cleaned_text ∈ seen
    · rw [if_pos h]; exact (ih seen).cons r
    · rw [if_neg h]; exact (ih _).cons₂ r

theorem filterKey_cons_pos (v : Str) (r : CRow) (rs : List CRow)
    (h : r.cleaned_text = v) :
    (r :: rs).filter (fun x => decide (x.cleaned_text = v)) =
      r :: rs.filter (fun x => decide (x.cleaned_text = v)) := by
  simp only [List.filter_cons, decide_eq_true_eq]
  rw [if_pos h]

theorem filterKey_cons_neg (v : Str) (r : CRow) (rs : List CRow)
    (h : ¬ r.cleaned_text = v) :
    (r :: rs).filter (fun x => decide (x.cleaned_text = v)) =
      rs.filter (fun x => decide (x.cleaned_text = v)) := by
  simp only [List.filter_cons, decide_eq_true_eq]
  rw [if_neg h]

theorem dropDupsBy_filter :
    ∀ (l : List CRow) (seen : List Str) (v : Str),
      (dropDupsBy l seen).filter (fun r => decide (r.cleaned_text = v)) =
        if v ∈ seen then []
        else (l.filter (fun r => decide (r.cleaned_text = v))).take 1 := by
  intro l
  induction l with
  | nil =>
    intro seen v
    by_cases hv : v ∈ seen <;> simp [dropDupsBy, hv]
  | cons r rs ih =>
    intro seen v
    unfold dropDupsBy
    by_cases h : r.cleaned_text ∈ seen
    · rw [if_pos h, ih]
      by_cases hv : v ∈ seen
      · rw [if_pos hv, if_pos hv]
      · rw [if_neg hv, if_neg hv, filterKey_cons_neg v r rs (fun e => hv (e ▸ h))]
    · rw [if_neg h]
      by_cases hv : r.cleaned_text = v
      · rw [filterKey_cons_pos v r _ hv, ih,
          if_pos (show v ∈ r.cleaned_text :: seen by
            rw [← hv]; exact List.mem_cons_self _ _),
          if_neg (show ¬ v ∈ seen from fun hm => h (by rw [hv]; exact hm)),
          filterKey_cons_pos v r rs hv]
        rfl
      · rw [filterKey_cons_neg v r _ hv, ih, filterKey_cons_neg v r rs hv]
        by_cases hvs : v ∈ seen
        · rw [if_pos (List.mem_cons_of_mem _ hvs), if_pos hvs]
        · rw [if_neg (show ¬ v ∈ r.cleaned_text :: seen from fun hm => by
            rcases List.mem_cons.mp hm with e | hm'
            · exact hv e.symm
            · exact hvs hm'), if_neg hvs]

theorem dropDupsBy_nodup :
    ∀ (l : List CRow) (seen : List Str),
      ((dropDupsBy l seen).map (fun r => r.cleaned_text)).Nodup
      ∧ ∀ r ∈ dropDupsBy l seen, r.cleaned_text ∉ seen := by
  intro l
  induction l with
  | nil => intro seen; simp [dropDupsBy]
  | cons r rs ih =>
    intro seen
    unfold dropDupsBy
    by_cases h : r.cleaned_text ∈ seen
    · rw [if_pos h]; exact ih seen
    · rw [if_neg h]
      obtain ⟨hnd, hni⟩ := ih (r.cleaned_text :: seen)
      refine ⟨?_, ?_⟩
      · simp only [List.map_cons, List.nodup_cons]
        refine ⟨?_, hnd⟩
        intro hmem
        obtain ⟨r', hr', he⟩ := List.mem_map.mp hmem
        exact hni r' hr' (he ▸ List.mem_cons_self _ _)
      · intro r' hr'
        rcases List.mem_cons.mp hr' with rfl | hr'
        · exact h
        · intro hs
          exact hni r' hr' (List.mem_cons_of_mem _ hs)

theorem preDedup_cleaned_ne_nil (df : List Row) :
    ∀ r ∈ preDedup df, r.cleaned_text ≠ [] := by
  intro r hr
  unfold preDedup at hr
  simp only [List.mem_map, List.mem_filter] at hr
  obtain ⟨rc, ⟨_, hlen⟩, rfl⟩ := hr
  simp only [decide_eq_true_eq] at hlen
  intro e
  exact absurd hlen (by simp [show rc.2 = [] from e])

/-- C5: on every corpus, the filter/deduplication stage of `clean_dataset`
leaves no record with empty `cleaned_text`, no two records with the same
`cleaned_text`, output order is a sublist of the pre-dedup order, and for
every `cleaned_text` value the output keeps exactly the first-seen record
with that value. -/
theorem C5_dedup_invariants (df : List Row) :
    (∀ r ∈ clean_dataset df, r.cleaned_text ≠ [])
    ∧ (clean_dataset df).Pairwise (fun a b => a.cleaned_text ≠ b.cleaned_text)
    ∧ List.Sublist (clean_dataset df) (preDedup df)
    ∧ (∀ v : Str, (clean_dataset df).filter (fun r => decide (r.cleaned_text = v)) =
        ((preDedup df).filter (fun r => decide (r.cleaned_text = v))).take 1) := by
  refine ⟨?_, ?_, ?_, ?_⟩
  · intro r hr
    exact preDedup_cleaned_ne_nil df r
      ((dropDupsBy_sublist (preDedup df) []).subset hr)
  · have hnd := (dropDupsBy_nodup (preDedup df) []).1
    exact List.pairwise_map.mp hnd
  · exact dropDupsBy_sublist _ _
  · intro v
    have h := dropDupsBy_filter (preDedup df) [] v
    rwa [if_neg (List.not_mem_nil v)] at h

/-! ### The sampler of `DataCollector.load_data` (C3, C4, C8) -/

/-- The pandas pseudo-random operations used by `load_data`:
`DataFrame.sample(n=…, random_state=seed)` (a selection of `n` rows without
replacement, a pure function of the seed) and
`DataFrame.sample(frac=1, random_state=seed)` (a permutation of the rows,
a pure function of the seed), together with the guarantees pandas documents
for them. -/
structure RngSpec where
  select : Nat → Nat → List Row → List Row
  shuffle : Nat → List Row → List Row
  select_sublist : ∀ seed n l, List.Sublist (select seed n l) l
  select_length : ∀ seed n l, n ≤ l.length → (select seed n l).length = n
  shuffle_perm : ∀ seed l, (shuffle seed l).Perm l

/-- One concrete instance of the pandas sampling contract: select the first
`n` rows and shuffle as the identity permutation. -/
def takeRng : RngSpec where
  select := fun _ n l => l.take n
  shuffle := fun _ l => l
  select_sublist := fun _ n l => List.take_sublist n l
  select_length := fun _ n l h => by
    simp [List.length_take, Nat.min_eq_left h]
  shuffle_perm := fun _ l => List.Perm.refl l

/-- The sampling-and-shuffle stage of `DataCollector.load_data`
(lines 61–74): when `sample_size` is truthy and smaller than the frame, draw
`sample_size // 2` rows from the `sentiment == 0` rows and from the
`sentiment == 4` rows (each capped at the class's size, seed 42),
concatenate, and shuffle the result with seed 42; otherwise keep the whole
frame. -/
def sampleStage (R : RngSpec) (df : List Row) (sample_size : Nat) : List Row :=
  if 0 < sample_size ∧ sample_size < df.length then
    let negative_tweets := df.filter (fun r => decide (r.sentiment = 0))
    let positive_tweets := df.filter (fun r => decide (r.sentiment = 4))
    let half_sample := sample_size / 2
    let neg_sample := R.select 42 (min half_sample negative_tweets.length) negative_tweets
    let pos_sample := R.select 42 (min half_sample positive_tweets.length) positive_tweets
    R.shuffle 42 (neg_sample ++ pos_sample)
  else df

/-- A four-record corpus holding one negative, two neutral and one positive
record. -/
def c3Corpus : List Row :=
  [⟨0, some "a".toList⟩, ⟨2, some "b".toList⟩,
   ⟨4, some "c".toList⟩, ⟨2, some "d".toList⟩]

/-- C3 fails on the code: for the corpus `c3Corpus` and the even target size
`N = 2` every one of the three label classes has at least `N/2 = 1` records
and `N` is smaller than the corpus size, yet the sample contains `0` neutral
records, not `N/2`: `load_data` draws only from the negative (`0`) and
positive (`4`) classes. -/
theorem C3_counterexample :
    (2 % 2 = 0 ∧ 0 < 2 ∧ 2 < c3Corpus.length
      ∧ 2 / 2 ≤ (c3Corpus.filter (fun r => decide (r.sentiment = 0))).length
      ∧ 2 / 2 ≤ (c3Corpus.filter (fun r => decide (r.sentiment = 2))).length
      ∧ 2 / 2 ≤ (c3Corpus.filter (fun r => decide (r.sentiment = 4))).length)
    ∧ ¬ ((sampleStage takeRng c3Corpus 2).countP
          (fun r => decide (r.sentiment = 2)) = 2 / 2) := by
  constructor
  · decide
  · decide

theorem countP_select_all {R : RngSpec} {p : Row → Bool} {l : List Row}
    (seed n : Nat) (hall : ∀ r ∈ l, p r = true) :
    (R.select seed n l).countP p = (R.select seed n l).length :=
  List.countP_eq_length.mpr fun r hr =>
    hall r ((R.select_sublist seed n l).subset hr)

theorem countP_select_none {R : RngSpec} {p : Row → Bool} {l : List Row}
    (seed n : Nat) (hnone : ∀ r ∈ l, p r = false) :
    (R.select seed n l).countP p = 0 :=
  List.countP_eq_zero.mpr fun r hr => by
    rw [hnone r ((R.select_sublist seed n l).subset hr)]
    simp

/-- C3 amended: whenever the negative and positive classes each have at
least `N/2` records, `N` is even, positive and smaller than the corpus, the
sampling stage returns exactly `N` records — `N/2` negative, `N/2` positive
and **zero** neutral, for every pandas-conforming random source. -/
theorem C3_amended (R : RngSpec) (df : List Row) (N : Nat)
    (hpos : 0 < N) (heven : N % 2 = 0) (hlt : N < df.length)
    (hneg : N / 2 ≤ (df.filter (fun r => decide (r.sentiment = 0))).length)
    (hposc : N / 2 ≤ (df.filter (fun r => decide (r.sentiment = 4))).length) :
    (sampleStage R df N).length = N
    ∧ (sampleStage R df N).countP (fun r => decide (r.sentiment = 0)) = N / 2
    ∧ (sampleStage R df N).countP (fun r => decide (r.sentiment = 4)) = N / 2
    ∧ (sampleStage R df N).countP (fun r => decide (r.sentiment = 2)) = 0 := by
  unfold sampleStage
  rw [if_pos ⟨hpos, hlt⟩]
  set neg := df.filter (fun r => decide (r.sentiment = 0)) with hnegdef
  set pos := df.filter (fun r => decide (r.sentiment = 4)) with hposdef
  have hmn : min (N / 2) neg.length = N / 2 := Nat.min_eq_left hneg
  have hmp : min (N / 2) pos.length = N / 2 := Nat.min_eq_left hposc
  have hlenn : (R.select 42 (min (N / 2) neg.length) neg).length = N / 2 := by
    rw [hmn]; exact R.select_length 42 (N / 2) neg hneg
  have hlenp : (R.select 42 (min (N / 2) pos.length) pos).length = N / 2 := by
    rw [hmp]; exact R.select_length 42 (N / 2) pos hposc
  have hperm := R.shuffle_perm 42
    (R.select 42 (min (N / 2) neg.length) neg ++ R.select 42 (min (N / 2) pos.length) pos)
  have hnegmem : ∀ r ∈ neg, decide (r.sentiment = 0) = true := by
    intro r hr; exact (List.mem_filter.mp hr).2
  have hposmem : ∀ r ∈ pos, decide (r.sentiment = 4) = true := by
    intro r hr; exact (List.mem_filter.mp hr).2
  have hneg4 : ∀ r ∈ neg, decide (r.sentiment = 4) = false := by
    intro r hr
    have h0 := (List.mem_filter.mp hr).2
    simp only [decide_eq_true_eq] at h0
    simp [h0]
  have hneg2 : ∀ r ∈ neg, decide (r.sentiment = 2) = false := by
    intro r hr
    have h0 := (List.mem_filter.mp hr).2
    simp only [decide_eq_true_eq] at h0
    simp [h0]
  have hpos0 : ∀ r ∈ pos, decide (r.sentiment = 0) = false := by
    intro r hr
    have h4 := (List.mem_filter.mp hr).2
    simp only [decide_eq_true_eq] at h4
    simp [h4]
  have hpos2 : ∀ r ∈ pos, decide (r.sentiment = 2) = false := by
    intro r hr
    have h4 := (List.mem_filter.mp hr).2
    simp only [decide_eq_true_eq] at h4
    simp [h4]
  refine ⟨?_, ?_, ?_, ?_⟩
  · rw [hperm.length_eq, List.length_append, hlenn, hlenp]
    omega
  · rw [hperm.countP_eq, List.countP_append,
      countP_select_all _ _ hnegmem, countP_select_none _ _ hpos0, hlenn,
      Nat.add_zero]
  · rw [hperm.countP_eq, List.countP_append,
      countP_select_none _ _ hneg4, countP_select_all _ _ hposmem, hlenp,
      Nat.zero_add]
  · rw [hperm.countP_eq, List.countP_append,
      countP_select_none _ _ hneg2, countP_select_none _ _ hpos2]

theorem C3_amended_witness :
    (sampleStage takeRng c3Corpus 2).length = 2
    ∧ (sampleStage takeRng c3Corpus 2).countP (fun r => decide (r.sentiment = 0)) = 2 / 2
    ∧ (sampleStage takeRng c3Corpus 2).countP (fun r => decide (r.sentiment = 4)) = 2 / 2
    ∧ (sampleStage takeRng c3Corpus 2).countP (fun r => decide (r.sentiment = 2)) = 0 :=
  C3_amended takeRng c3Corpus 2 (by decide) (by decide) (by decide)
    (by decide) (by decide)

/-- C4: the sampling-and-shuffle stage is a pure function of the corpus and
target size (every pseudo-random draw uses the fixed seed 42), so two runs
on the same input produce identical output sequences. -/
theorem C4_sampler_deterministic (R : RngSpec) (df : List Row) (N : Nat)
    (out1 out2 : List Row)
    (h1 : out1 = sampleStage R df N) (h2 : out2 = sampleStage R df N) :
    out1 = out2 :=
  h1.trans h2.symm

theorem C4_sampler_deterministic_witness :
    sampleStage takeRng c3Corpus 4 = sampleStage takeRng c3Corpus 4 :=
  C4_sampler_deterministic takeRng c3Corpus 4 _ _ rfl rfl

/-- The observable outcome of calling a Python function: a returned value or
a raised exception (named by its class). -/
inductive PyOutcome (α : Type) where
  | returned : α → PyOutcome α
  | raised : String → PyOutcome α
deriving DecidableEq

/-- `DataCollector.load_data`: when `check_dataset_exists()` is false (the
dataset file is absent, modelled by `fs = none`) the function prints a
message and returns `None` (line 43); a `FileNotFoundError`,
`EmptyDataError` or any other exception from the read is likewise caught
and turned into a returned `None` (lines 94–103). Otherwise the frame is
read and the sampling stage runs. -/
def load_data (R : RngSpec) (fs : Option (List Row)) (sample_size : Nat) :
    PyOutcome (Option (List Row)) :=
  match fs with
  | none => .returned none
  | some df => .returned (some (sampleStage R df sample_size))

/-- C8 fails on the code: with the dataset file absent, `load_data` does not
raise `InputNotFoundError` (or anything else) to the caller — it completes
normally, returning the sentinel `None`. -/
theorem C8_counterexample :
    load_data takeRng none 45000 = PyOutcome.returned none
    ∧ load_data takeRng none 45000 ≠ PyOutcome.raised "InputNotFoundError" := by
  constructor
  · rfl
  · decide

/-- C8 amended: when the corpus source is unavailable, `load_data` completes
normally with the `None` sentinel (the caller must test for it); no
exception of any name reaches the caller. -/
theorem C8_amended (R : RngSpec) (N : Nat) :
    load_data R none N = PyOutcome.returned none
    ∧ ∀ e : String, load_data R none N ≠ PyOutcome.raised e :=
  ⟨rfl, fun _ h => PyOutcome.noConfusion h⟩

/-! ### The vectorizer of `FeatureEngineer` (C6, C7)

`FeatureEngineer` delegates to sklearn's `TfidfVectorizer`, whose internals
are not part of this repository's sources; the fit/transform pipeline is
modelled from the spec's vectorizer contract (§4.4). -/

/-- Modelled from the spec: sklearn tokenization with `ngram_range=(1, 2)` —
"extracting all unigrams and bigrams (contiguous token pairs) per
document". -/
def terms (d : Str) : List Str :=
  words d ++ List.zipWith (fun a b => a ++ ' ' :: b) (words d) (words d).tail

/-- Term frequency of `t` within document `d`. -/
def tf (t : Str) (d : Str) : Nat := (terms d).count t

/-- Document count of `t`: in how many documents it appears. -/
def docCount (t : Str) (docs : List Str) : Nat :=
  docs.countP (fun d => (terms d).contains t)

/-- Aggregate corpus frequency of a term, the cap's tie-broken ranking key. -/
def corpusFreq (t : Str) (docs : List Str) : Nat :=
  (docs.map (tf t)).sum

/-- First-occurrence deduplication of a term list. -/
def dedupFirst (l : List Str) : List Str :=
  l.foldl (fun acc t => if t ∈ acc then acc else acc ++ [t]) []

/-- Lexicographic order on terms, the stable index order of the spec. -/
def lexLe : Str → Str → Bool
  | [], _ => true
  | _ :: _, [] => false
  | a :: as, b :: bs => if a = b then lexLe as bs else decide (a < b)

/-- Ranking for the vocabulary cap: higher aggregate corpus frequency first,
ties broken by lexicographic term order. -/
def freqRank (docs : List Str) (t1 t2 : Str) : Bool :=
  if corpusFreq t1 docs = corpusFreq t2 docs then lexLe t1 t2
  else decide (corpusFreq t2 docs < corpusFreq t1 docs)

/-- Modelled from the spec: vocabulary construction of the fitted
`TfidfVectorizer` — all unigrams/bigrams whose document count is at least
`min_df = 5` and whose document fraction is at most `max_df = 0.95`, capped
at `max_features = 10000` by highest aggregate corpus frequency (ties
lexicographic), indexed in sorted lexicographic order. -/
def buildVocab (docs : List Str) (minDf capN maxDfNum maxDfDen : Nat) : List Str :=
  let cands := dedupFirst (docs.flatMap terms)
  let kept := cands.filter (fun t =>
    decide (minDf ≤ docCount t docs) &&
    decide (docCount t docs * maxDfDen ≤ maxDfNum * docs.length))
  let capped := if capN < kept.length
    then (kept.mergeSort (freqRank docs)).take capN
    else kept
  capped.mergeSort lexLe

/-- `min_df=5` from `FeatureEngineer.__init__`. -/
def MIN_DF : Nat := 5

/-- `max_features=10000` from `FeatureEngineer.__init__`. -/
def MAX_FEATURES : Nat := 10000

/-- Modelled from the spec: the inverse-document-frequency weight learned at
fit time (sklearn's smoothed formula `ln((1+n)/(1+df)) + 1`). -/
noncomputable def idf (docs : List Str) (t : Str) : ℝ :=
  Real.log ((1 + docs.length : ℝ) / (1 + docCount t docs)) + 1

/-- Modelled from the spec: the unnormalized TF-IDF vector of one document
over the fitted vocabulary (terms outside the vocabulary contribute
nothing). -/
noncomputable def rawRow (docs vocab : List Str) (d : Str) : List ℝ :=
  vocab.map (fun t => (tf t d : ℝ) * idf docs t)

/-- Squared Euclidean norm of a feature vector. -/
noncomputable def l2normSq (v : List ℝ) : ℝ := (v.map (fun x => x ^ 2)).sum

/-- Modelled from the spec: sklearn's L2 row normalization — divide by the
Euclidean norm, or leave a zero vector unchanged. -/
noncomputable def l2normalize (v : List ℝ) : List ℝ :=
  if l2normSq v = 0 then v
  else v.map (fun x => x / Real.sqrt (l2normSq v))

/-- The TF-IDF matrix `fit_transform` produces: one L2-normalized row per
document. -/
noncomputable def tfidfMatrix (docs : List Str) : List (List ℝ) :=
  docs.map (fun d =>
    l2normalize (rawRow docs (buildVocab docs MIN_DF MAX_FEATURES 95 100) d))

/-- The state of a `FeatureEngineer`: the `is_fitted` flag and the corpus
the vectorizer was fitted on (which determines its vocabulary and idf). -/
structure FeatureEngineer where
  is_fitted : Bool
  fitted_docs : List Str

/-- `FeatureEngineer.__init__`: `is_fitted = False`, nothing fitted. -/
def FeatureEngineer.init : FeatureEngineer := ⟨false, []⟩

/-- `FeatureEngineer.create_features`: fit and transform `texts`, return the
matrix, the vocabulary, and the engineer with `is_fitted = True`. -/
noncomputable def create_features (fe : FeatureEngineer) (texts : List Str) :
    List (List ℝ) × List Str × FeatureEngineer :=
  (tfidfMatrix texts, buildVocab texts MIN_DF MAX_FEATURES 95 100,
    { fe with is_fitted := true, fitted_docs := texts })

/-- `FeatureEngineer.transform`: `raise RuntimeError("Vectorizer not fitted
yet…")` — the spec's `NotFittedError` — when `is_fitted` is false, otherwise
transform with the fitted vocabulary. -/
noncomputable def FeatureEngineer.transform (fe : FeatureEngineer)
    (texts : List Str) : PyOutcome (List (List ℝ)) :=
  if fe.is_fitted = false then .raised "NotFittedError"
  else .returned (texts.map (fun d =>
    l2normalize
      (rawRow fe.fitted_docs
        (buildVocab fe.fitted_docs MIN_DF MAX_FEATURES 95 100) d)))

theorem sumSq_nonneg (v : List ℝ) : 0 ≤ l2normSq v :=
  List.sum_nonneg fun x hx => by
    obtain ⟨y, _, rfl⟩ := List.mem_map.mp hx
    positivity

theorem sumSq_eq_zero {v : List ℝ} (h : l2normSq v = 0) : ∀ x ∈ v, x = 0 := by
  induction v with
  | nil => intro x hx; exact absurd hx (List.not_mem_nil x)
  | cons a v ih =>
    have hsplit : l2normSq (a :: v) = a ^ 2 + l2normSq v := by
      simp [l2normSq]
    rw [hsplit] at h
    have ha2 : (0:ℝ) ≤ a ^ 2 := by positivity
    have hv : 0 ≤ l2normSq v := sumSq_nonneg v
    have ha : a ^ 2 = 0 := by linarith
    have hvz : l2normSq v = 0 := by linarith
    intro x hx
    rcases List.mem_cons.mp hx with rfl | hx
    · exact (pow_eq_zero_iff (two_ne_zero)).mp ha
    · exact ih hvz x hx

theorem l2normalize_normSq (v : List ℝ) :
    l2normSq (l2normalize v) = 1 ∨ ∀ x ∈ l2normalize v, x = 0 := by
  by_cases h : l2normSq v = 0
  · right
    rw [l2normalize, if_pos h]
    exact sumSq_eq_zero h
  · left
    have h0 : 0 ≤ l2normSq v := sumSq_nonneg v
    rw [l2normalize, if_neg h]
    set S := l2normSq v with hS
    have hsq : Real.sqrt S ^ 2 = S := Real.sq_sqrt h0
    show l2normSq (v.map fun x => x / Real.sqrt S) = 1
    unfold l2normSq
    rw [List.map_map]
    have hfun : ((fun x => x ^ 2) ∘ fun x => x / Real.sqrt S)
        = fun x => x ^ 2 * S⁻¹ := by
      funext x
      simp only [Function.comp_apply, div_eq_mul_inv, mul_pow, inv_pow, hsq]
    rw [hfun, List.sum_map_mul_right]
    have hsum : (List.map (fun x => x ^ 2) v).sum = S := by rw [hS]; rfl
    rw [hsum, mul_inv_cancel₀ h]

/-- C6: every row of the TF-IDF matrix returned by
`FeatureEngineer.create_features` has squared Euclidean norm exactly 1 (so
Euclidean norm 1, well within the 1e-9 tolerance), or is the all-zero
vector (the case of a document with no vocabulary term). -/
theorem C6_rows_normalized (fe : FeatureEngineer) (docs : List Str) (i : Nat)
    (h : i < ((create_features fe docs).1).length) :
    l2normSq (((create_features fe docs).1).get ⟨i, h⟩) = 1
    ∨ ∀ x ∈ ((create_features fe docs).1).get ⟨i, h⟩, x = 0 := by
  have hm : ((create_features fe docs).1).get ⟨i, h⟩ =
      l2normalize
        (rawRow docs (buildVocab docs MIN_DF MAX_FEATURES 95 100)
          (docs.get ⟨i, by simpa [create_features, tfidfMatrix] using h⟩)) := by
    simp [create_features, tfidfMatrix]
  rw [hm]
  exact l2normalize_normSq _

theorem C6_rows_normalized_witness :
    l2normSq (((create_features FeatureEngineer.init ["love".toList]).1).get
        ⟨0, by simp [create_features, tfidfMatrix]⟩) = 1
    ∨ ∀ x ∈ ((create_features FeatureEngineer.init ["love".toList]).1).get
        ⟨0, by simp [create_features, tfidfMatrix]⟩, x = 0 :=
  C6_rows_normalized FeatureEngineer.init ["love".toList] 0
    (by simp [create_features, tfidfMatrix])

/-- C7: `transform` on a freshly initialized (unfitted) engineer fails with
the not-fitted error, and after a successful `create_features` the returned
engineer's `transform` never raises it. -/
theorem C7_transform_fit_guard (texts fitTexts : List Str) (fe : FeatureEngineer) :
    FeatureEngineer.init.transform texts = PyOutcome.raised "NotFittedError"
    ∧ ∀ e : String,
        ((create_features fe fitTexts).2.2).transform texts ≠ PyOutcome.raised e := by
  constructor
  · rfl
  · intro e h
    unfold FeatureEngineer.transform create_features at h
    simp at h

/-! ### The splitter of `FeatureEngineer.split_data` (C9)

`split_data` delegates to sklearn's `train_test_split`, which is not part of
this repository's sources; it is modelled from the spec's splitter contract
(§4.5). -/

/-- Modelled from the spec: the seeded permutation
(`random_state=42` shuffling) inside `train_test_split`, abstracted as a
deterministic permutation that is a pure function of the seed. -/
structure SplitRng (α : Type) where
  shuffle : Nat → List α → List α
  shuffle_perm : ∀ seed l, (shuffle seed l).Perm l

/-- The identity instance of the shuffling contract. -/
def idSplitRng (α : Type) : SplitRng α where
  shuffle := fun _ l => l
  shuffle_perm := fun _ l => List.Perm.refl l

/-- Modelled from the spec: sklearn's test-set size for a fractional
`test_size = p/q`, `ceil(n * p / q)`. -/
def nTest (n p q : Nat) : Nat := (n * p + q - 1) / q

/-- Modelled from the spec: the non-stratified split — shuffle with seed 42,
take the test fraction off the front, the rest is the training part. -/
def plainSplit {α : Type} (R : SplitRng (α × Nat)) (data : List (α × Nat))
    (p q : Nat) : List (α × Nat) × List (α × Nat) :=
  let sh := R.shuffle 42 data
  ((sh.drop (nTest data.length p q)), sh.take (nTest data.length p q))

/-- Modelled from the spec: stratification is feasible when every label that
occurs has at least 2 examples (sklearn raises `ValueError` otherwise). -/
def stratFeasible {α : Type} (data : List (α × Nat)) : Bool :=
  data.all (fun r => decide (2 ≤ data.countP (fun s => decide (s.2 = r.2))))

/-- Modelled from the spec: assign each record to the test part while its
label's test quota is unfilled, else to the training part. -/
def stratAssign {α : Type} :
    List (α × Nat) → (Nat → Nat) → List (α × Nat) × List (α × Nat)
  | [], _ => ([], [])
  | r :: rs, need =>
    if 0 < need r.2 then
      let rest := stratAssign rs (fun l => if l = r.2 then need l - 1 else need l)
      (rest.1, r :: rest.2)
    else
      let rest := stratAssign rs need
      (r :: rest.1, rest.2)

/-- Modelled from the spec: the stratified split — shuffle with seed 42 and
fill a per-label test quota proportional to the label's share. -/
def stratSplit {α : Type} (R : SplitRng (α × Nat)) (data : List (α × Nat))
    (p q : Nat) : List (α × Nat) × List (α × Nat) :=
  stratAssign (R.shuffle 42 data)
    (fun l => nTest (data.countP (fun s => decide (s.2 = l))) p q)

/-- Modelled from the spec: `train_test_split(…, stratify=y)` raises
`ValueError` when stratification is infeasible. -/
def train_test_split_strat {α : Type} (R : SplitRng (α × Nat))
    (data : List (α × Nat)) (p q : Nat) :
    PyOutcome (List (α × Nat) × List (α × Nat)) :=
  if stratFeasible data then .returned (stratSplit R data p q)
  else .raised "ValueError"

/-- `FeatureEngineer.split_data`: try the stratified split and fall back to
a plain split with the same fraction on `ValueError`. -/
def split_data {α : Type} (R : SplitRng (α × Nat)) (data : List (α × Nat))
    (p q : Nat) : PyOutcome (List (α × Nat) × List (α × Nat)) :=
  match train_test_split_strat R data p q with
  | .returned v => .returned v
  | .raised _ => .returned (plainSplit R data p q)

theorem stratAssign_perm {α : Type} :
    ∀ (l : List (α × Nat)) (need : Nat → Nat),
      ((stratAssign l need).1 ++ (stratAssign l need).2).Perm l := by
  intro l
  induction l with
  | nil => intro need; simp [stratAssign]
  | cons r rs ih =>
    intro need
    unfold stratAssign
    by_cases h : 0 < need r.2
    · rw [if_pos h]
      exact (List.perm_middle).trans ((ih _).cons r)
    · rw [if_neg h]
      simpa using (ih need).cons r

/-- C9: when stratification is infeasible (a label with fewer than 2
examples), `split_data` returns normally with the non-stratified split of
the same fraction instead of raising; and in both branches the returned
train and test parts together are a permutation of (cover) the whole
dataset. -/
theorem C9_split_fallback_and_cover {α : Type} (R : SplitRng (α × Nat))
    (data : List (α × Nat)) (p q : Nat) :
    (¬ stratFeasible data = true →
      split_data R data p q = PyOutcome.returned (plainSplit R data p q))
    ∧ (∀ tr te, split_data R data p q = PyOutcome.returned (tr, te) →
        (tr ++ te).Perm data) := by
  constructor
  · intro hinf
    unfold split_data train_test_split_strat
    rw [if_neg hinf]
  · intro tr te h
    unfold split_data train_test_split_strat at h
    by_cases hf : stratFeasible data
    · rw [if_pos hf] at h
      injection h with h
      have htr : (stratSplit R data p q).1 = tr := by rw [h]
      have hte : (stratSplit R data p q).2 = te := by rw [h]
      rw [← htr, ← hte]
      exact (stratAssign_perm (R.shuffle 42 data) _).trans (R.shuffle_perm 42 data)
    · rw [if_neg hf] at h
      injection h with h
      have htr : (plainSplit R data p q).1 = tr := by rw [h]
      have hte : (plainSplit R data p q).2 = te := by rw [h]
      rw [← htr, ← hte]
      show (((R.shuffle 42 data).drop (nTest data.length p q)) ++
        ((R.shuffle 42 data).take (nTest data.length p q))).Perm data
      have hcomb := List.take_append_drop (nTest data.length p q) (R.shuffle 42 data)
      exact List.perm_append_comm.trans (hcomb.symm ▸ R.shuffle_perm 42 data)

/-! ### `clean_dataset` does not mutate its input frame (C10)

Tracked over an explicit pandas object store: `df.copy()` allocates a fresh
object; filtering (`dropna`, boolean indexing, `drop_duplicates`,
`reset_index`) returns fresh frames that `clean_df` is rebound to; column
assignment (`clean_df['cleaned_text'] = …`, `clean_df['sentiment_label'] = …`)
mutates the object `clean_df` currently names, in place. -/

/-- A data-frame row as it evolves inside `clean_dataset`: the ingested
columns plus the two columns the function adds (absent until assigned). -/
structure PRow where
  sentiment : Nat
  text : Option Str
  cleaned_text : Option Str
  sentiment_label : Option (Option String)

/-- The pandas object store: frame values indexed by object id, plus the
next fresh id. -/
structure PdState where
  heap : Nat → List PRow
  next : Nat

/-- Allocate a fresh frame object holding `v`. -/
def alloc (σ : PdState) (v : List PRow) : Nat × PdState :=
  (σ.next, ⟨fun i => if i = σ.next then v else σ.heap i, σ.next + 1⟩)

/-- Mutate the frame object `i` in place. -/
def writeObj (σ : PdState) (i : Nat) (v : List PRow) : PdState :=
  ⟨fun j => if j = i then v else σ.heap j, σ.next⟩

/-- First-occurrence deduplication on the `cleaned_text` column of `PRow`s
(`drop_duplicates(subset=['cleaned_text'])` over the store's row type). -/
def dropDupsPBy : List PRow → List (Option Str) → List PRow
  | [], _ => []
  | r :: rs, seen =>
    if r.cleaned_text ∈ seen then dropDupsPBy rs seen
    else r :: dropDupsPBy rs (r.cleaned_text :: seen)

/-- `DataCleaner.clean_dataset` line by line over the object store, with the
frame transformations of each line; returns the id `clean_df` finally names
and the final store. -/
def clean_dataset_prog (df : Nat) (σ0 : PdState) : Nat × PdState :=
  -- clean_df = df.copy()
  let a1 := alloc σ0 (σ0.heap df)
  -- clean_df = clean_df.dropna(subset=['text'])
  let a2 := alloc a1.2 ((a1.2.heap a1.1).filter (fun r => r.text.isSome))
  -- clean_df = clean_df[clean_df['text'].str.strip() != '']
  let a3 := alloc a2.2
    ((a2.2.heap a2.1).filter (fun r => !(pyStrip (r.text.getD [])).isEmpty))
  -- clean_df['cleaned_text'] = clean_df['text'].progress_apply(self.clean_text_fast)
  let σ4 := writeObj a3.2 a3.1 ((a3.2.heap a3.1).map (fun r =>
    { r with cleaned_text := some (clean_text_fast (r.text.getD [])) }))
  -- clean_df = clean_df[clean_df['cleaned_text'].str.len() > 0]
  let a5 := alloc σ4
    ((σ4.heap a3.1).filter (fun r => decide (0 < (r.cleaned_text.getD []).length)))
  -- clean_df['sentiment_label'] = clean_df['sentiment'].map(SENTIMENT_MAP)
  let σ6 := writeObj a5.2 a5.1 ((a5.2.heap a5.1).map (fun r =>
    { r with sentiment_label := some (SENTIMENT_MAP r.sentiment) }))
  -- clean_df = clean_df.drop_duplicates(subset=['cleaned_text'])
  let a7 := alloc σ6 (dropDupsPBy (σ6.heap a5.1) [])
  -- clean_df = clean_df.reset_index(drop=True)
  let a8 := alloc a7.2 (a7.2.heap a7.1)
  (a8.1, a8.2)

/-- C10: `clean_dataset` leaves its input frame unchanged — every filter,
the two added columns and the index reset touch only objects allocated
during the call — and the returned frame is a fresh object, not the
input. -/
theorem C10_no_input_mutation (σ0 : PdState) (df : Nat) (h : df < σ0.next) :
    (clean_dataset_prog df σ0).2.heap df = σ0.heap df
    ∧ (clean_dataset_prog df σ0).1 ≠ df := by
  constructor
  · simp only [clean_dataset_prog, alloc, writeObj]
    split_ifs <;> first | rfl | omega
  · simp only [clean_dataset_prog, alloc, writeObj]
    omega

theorem C10_no_input_mutation_witness :
    (clean_dataset_prog 0 ⟨fun _ => [], 1⟩).2.heap 0 =
      (⟨fun _ => [], 1⟩ : PdState).heap 0
    ∧ (clean_dataset_prog 0 ⟨fun _ => [], 1⟩).1 ≠ 0 :=
  C10_no_input_mutation ⟨fun _ => [], 1⟩ 0 (by decide)

/-! ### Idempotence of the normalizer (C2)

The output of `clean_text_fast` consists of lower-case-letter tokens joined
by single spaces, and — the delicate part — contains no position where the
regex alternation `http\S+|www\S+|@\w+|#\w+` could match again.  The next
sections establish that every suffix of the output of `stripSub` is
match-free, transport that fact through the remaining pipeline stages, and
conclude that a second application of `clean_text_fast` is the identity on
the first application's output. -/

theorem tryMatch_http_eq (c : Char) (r : Str) :
    tryMatch ('h' :: 't' :: 't' :: 'p' :: c :: r) =
      if isWs c then none
      else some ((c :: r).dropWhile (fun d => !isWs d)) := rfl

theorem tryMatch_www_eq (c : Char) (r : Str) :
    tryMatch ('w' :: 'w' :: 'w' :: c :: r) =
      if isWs c then none
      else some ((c :: r).dropWhile (fun d => !isWs d)) := rfl

theorem tryMatch_some_shape {u r : Str} (h : tryMatch u = some r) :
    (∃ c t, u = 'h' :: 't' :: 't' :: 'p' :: c :: t ∧ isWs c = false) ∨
    (∃ c t, u = 'w' :: 'w' :: 'w' :: c :: t ∧ isWs c = false) ∨
    (∃ c t, u = '@' :: c :: t ∧ isWordChar c = true) ∨
    (∃ c t, u = '#' :: c :: t ∧ isWordChar c = true) := by
  unfold tryMatch at h
  split at h
  next c t =>
    left
    split at h
    · exact absurd h (by simp)
    · next hws => exact ⟨c, t, rfl, by simpa using hws⟩
  next c t =>
    right; left
    split at h
    · exact absurd h (by simp)
    · next hws => exact ⟨c, t, rfl, by simpa using hws⟩
  next c t =>
    right; right; left
    split at h
    · next hw => exact ⟨c, t, rfl, hw⟩
    · exact absurd h (by simp)
  next c t =>
    right; right; right
    split at h
    · next hw => exact ⟨c, t, rfl, hw⟩
    · exact absurd h (by simp)
  next => exact absurd h (by simp)

theorem tryMatch_none_of_head {c : Char} (t : Str)
    (h1 : c ≠ 'h') (h2 : c ≠ 'w') (h3 : c ≠ '@') (h4 : c ≠ '#') :
    tryMatch (c :: t) = none := by
  cases hm : tryMatch (c :: t) with
  | none => rfl
  | some r =>
    rcases tryMatch_some_shape hm with ⟨c', t', he, _⟩ | ⟨c', t', he, _⟩ |
      ⟨c', t', he, _⟩ | ⟨c', t', he, _⟩
    · exact absurd (by injection he) h1
    · exact absurd (by injection he) h2
    · exact absurd (by injection he) h3
    · exact absurd (by injection he) h4

theorem ws_char_cases {c : Char} (h : isWs c = true) :
    c = ' ' ∨ c = '\t' ∨ c = '\n' ∨ c = '\r' ∨ c = '\x0b' ∨ c = '\x0c' := by
  unfold isWs at h
  simp only [Bool.or_eq_true, decide_eq_true_eq] at h
  tauto

theorem not_lower_of_ws {c : Char} (h : isWs c = true) : isLowerAZ c = false := by
  rcases ws_char_cases h with rfl | rfl | rfl | rfl | rfl | rfl <;> decide

theorem not_ws_of_lower {c : Char} (h : isLowerAZ c = true) : isWs c = false := by
  cases hw : isWs c with
  | false => rfl
  | true => rw [not_lower_of_ws hw] at h; exact absurd h (by simp)

theorem not_word_of_ws {c : Char} (h : isWs c = true) : isWordChar c = false := by
  rcases ws_char_cases h with rfl | rfl | rfl | rfl | rfl | rfl <;> decide

theorem ws_not_pattern_head {c : Char} (h : isWs c = true) :
    c ≠ 'h' ∧ c ≠ 'w' ∧ c ≠ '@' ∧ c ≠ '#' := by
  rcases ws_char_cases h with rfl | rfl | rfl | rfl | rfl | rfl <;>
    exact ⟨by decide, by decide, by decide, by decide⟩

/-- Every suffix of `t` is free of a match of the alternation. -/
def NoMatch (t : Str) : Prop :=
  ∀ u, List.IsSuffix u t → tryMatch u = none

theorem NoMatch_nil : NoMatch [] := by
  intro u hu
  rw [List.suffix_nil.mp hu]
  rfl

theorem NoMatch_cons {c : Char} {cs : Str}
    (h : tryMatch (c :: cs) = none) (hcs : NoMatch cs) : NoMatch (c :: cs) := by
  intro u hu
  rcases List.suffix_cons_iff.mp hu with rfl | hu
  · exact h
  · exact hcs u hu

theorem NoMatch.of_cons {c : Char} {cs : Str} (h : NoMatch (c :: cs)) :
    NoMatch cs := fun u hu => h u (hu.trans (List.suffix_cons c cs))

theorem stripSub_eq_self : ∀ {t : Str}, NoMatch t → stripSub t = t := by
  intro t
  induction t with
  | nil => intro _; rfl
  | cons c cs ih =>
    intro h
    rw [stripSub_cons_none (h _ List.suffix_rfl), ih h.of_cons]

theorem dropWhile_head_false {p : Char → Bool} :
    ∀ {l : Str} {b : Char} {l' : Str}, List.dropWhile p l = b :: l' → p b = false := by
  intro l
  induction l with
  | nil => intro b l' h; exact absurd h (by simp)
  | cons a as ih =>
    intro b l' h
    rw [List.dropWhile_cons] at h
    split at h
    · exact ih h
    · next hp =>
      injection h with h1 _
      subst h1
      simpa using hp

theorem tryMatch_rest_head {u rest : Str} (h : tryMatch u = some rest) :
    rest = [] ∨ ∃ b rs, rest = b :: rs ∧ isWordChar b = false := by
  unfold tryMatch at h
  split at h
  next c t =>
    split at h
    · exact absurd h (by simp)
    · injection h with h
      cases hd : List.dropWhile (fun d => !isWs d) (c :: t) with
      | nil => left; rw [← h, hd]
      | cons b rs =>
        right
        refine ⟨b, rs, by rw [← h, hd], ?_⟩
        have hb := dropWhile_head_false hd
        exact not_word_of_ws (by simpa using hb)
  next c t =>
    split at h
    · exact absurd h (by simp)
    · injection h with h
      cases hd : List.dropWhile (fun d => !isWs d) (c :: t) with
      | nil => left; rw [← h, hd]
      | cons b rs =>
        right
        refine ⟨b, rs, by rw [← h, hd], ?_⟩
        have hb := dropWhile_head_false hd
        exact not_word_of_ws (by simpa using hb)
  next c t =>
    split at h
    · injection h with h
      cases hd : List.dropWhile isWordChar (c :: t) with
      | nil => left; rw [← h, hd]
      | cons b rs =>
        right
        exact ⟨b, rs, by rw [← h, hd], dropWhile_head_false hd⟩
    · exact absurd h (by simp)
  next c t =>
    split at h
    · injection h with h
      cases hd : List.dropWhile isWordChar (c :: t) with
      | nil => left; rw [← h, hd]
      | cons b rs =>
        right
        exact ⟨b, rs, by rw [← h, hd], dropWhile_head_false hd⟩
    · exact absurd h (by simp)
  next => exact absurd h (by simp)

theorem stripSub_word_head_aux :
    ∀ (n : Nat) (t : Str), t.length ≤ n → ∀ (a : Char) (os : Str),
      stripSub t = a :: os → isWordChar a = true →
      ∃ t', t = a :: t' ∧ os = stripSub t' ∧ tryMatch t = none := by
  intro n
  induction n with
  | zero =>
    intro t ht a os hs _
    have : t = [] := List.length_eq_zero.mp (Nat.le_zero.mp ht)
    subst this
    exact absurd hs (by simp [stripSub_nil])
  | succ n ih =>
    intro t ht a os hs hw
    cases t with
    | nil => exact absurd hs (by simp [stripSub_nil])
    | cons c cs =>
      cases hm : tryMatch (c :: cs) with
      | none =>
        rw [stripSub_cons_none hm] at hs
        injection hs with h1 h2
        subst h1
        exact ⟨cs, rfl, h2.symm, rfl⟩
      | some rest =>
        rw [stripSub_cons_some hm] at hs
        have hlen : rest.length ≤ n := by
          have := tryMatch_some_length hm
          simp only [List.length_cons] at ht this
          omega
        obtain ⟨t', h1, _, _⟩ := ih rest hlen a os hs hw
        rcases tryMatch_rest_head hm with hrn | ⟨b, rs, hb, hbw⟩
        · rw [hrn] at h1
          exact absurd h1 (by simp)
        · rw [hb] at h1
          injection h1 with h1 _
          rw [h1] at hbw
          rw [hbw] at hw
          exact absurd hw (by simp)

/-- A word-character head of `stripSub t` is a kept head of `t`. -/
theorem stripSub_word_head {t : Str} {a : Char} {os : Str}
    (hs : stripSub t = a :: os) (hw : isWordChar a = true) :
    ∃ t', t = a :: t' ∧ os = stripSub t' ∧ tryMatch t = none :=
  stripSub_word_head_aux t.length t le_rfl a os hs hw

theorem tryMatch_amp_eq (c : Char) (r : Str) :
    tryMatch ('@' :: c :: r) =
      if isWordChar c then some ((c :: r).dropWhile isWordChar) else none := rfl

theorem tryMatch_hash_eq (c : Char) (r : Str) :
    tryMatch ('#' :: c :: r) =
      if isWordChar c then some ((c :: r).dropWhile isWordChar) else none := rfl

theorem NoMatch_stripSub_aux :
    ∀ (n : Nat) (s : Str), s.length ≤ n → NoMatch (stripSub s) := by
  intro n
  induction n with
  | zero =>
    intro s hs
    have : s = [] := List.length_eq_zero.mp (Nat.le_zero.mp hs)
    subst this
    rw [stripSub_nil]
    exact NoMatch_nil
  | succ n ih =>
    intro s hs
    cases s with
    | nil =>
      rw [stripSub_nil]
      exact NoMatch_nil
    | cons c cs =>
      simp only [List.length_cons] at hs
      cases hm : tryMatch (c :: cs) with
      | some rest =>
        rw [stripSub_cons_some hm]
        have := tryMatch_some_length hm
        simp only [List.length_cons] at this
        exact ih rest (by omega)
      | none =>
        rw [stripSub_cons_none hm]
        have hout : NoMatch (stripSub cs) := ih cs (by omega)
        refine NoMatch_cons ?_ hout
        cases hm2 : tryMatch (c :: stripSub cs) with
        | none => rfl
        | some r =>
          exfalso
          rcases tryMatch_some_shape hm2 with ⟨d, t', he, hd⟩ | ⟨d, t', he, hd⟩ |
            ⟨d, t', he, hd⟩ | ⟨d, t', he, hd⟩
          · -- `http` shape: the `'t','t','p',d` were kept heads, so the
            -- original scan saw `http` followed by a non-space and would
            -- have matched.
            injection he with hc he
            subst hc
            obtain ⟨cs₂, hcs, hos2, _⟩ := stripSub_word_head he (by decide)
            obtain ⟨cs₃, hcs3, hos3, _⟩ := stripSub_word_head hos2.symm (by decide)
            obtain ⟨cs₄, hcs4, hos4, _⟩ := stripSub_word_head hos3.symm (by decide)
            rw [hcs4] at hcs3
            rw [hcs3] at hcs
            rw [hcs] at hm
            rcases cs₄ with _ | ⟨e, cs₅⟩
            · exact absurd hos4 (by simp [stripSub_nil])
            · rw [tryMatch_http_eq] at hm
              split at hm
              · next hws =>
                have hne := ws_not_pattern_head hws
                have hnone : tryMatch (e :: cs₅) = none :=
                  tryMatch_none_of_head _ hne.1 hne.2.1 hne.2.2.1 hne.2.2.2
                rw [stripSub_cons_none hnone] at hos4
                injection hos4 with h1 _
                rw [h1] at hd
                rw [hws] at hd
                exact absurd hd (by simp)
              · exact absurd hm (by simp)
          · -- `www` shape.
            injection he with hc he
            subst hc
            obtain ⟨cs₂, hcs, hos2, _⟩ := stripSub_word_head he (by decide)
            obtain ⟨cs₃, hcs3, hos3, _⟩ := stripSub_word_head hos2.symm (by decide)
            rw [hcs3] at hcs
            rw [hcs] at hm
            rcases cs₃ with _ | ⟨e, cs₅⟩
            · exact absurd hos3 (by simp [stripSub_nil])
            · rw [tryMatch_www_eq] at hm
              split at hm
              · next hws =>
                have hne := ws_not_pattern_head hws
                have hnone : tryMatch (e :: cs₅) = none :=
                  tryMatch_none_of_head _ hne.1 hne.2.1 hne.2.2.1 hne.2.2.2
                rw [stripSub_cons_none hnone] at hos3
                injection hos3 with h1 _
                rw [h1] at hd
                rw [hws] at hd
                exact absurd hd (by simp)
              · exact absurd hm (by simp)
          · -- `@` shape: a word character directly after the kept `@` would
            -- have made the original scan match.
            injection he with hc he
            subst hc
            obtain ⟨cs₂, hcs, _, _⟩ := stripSub_word_head he hd
            rw [hcs, tryMatch_amp_eq, if_pos hd] at hm
            exact absurd hm (by simp)
          · -- `#` shape.
            injection he with hc he
            subst hc
            obtain ⟨cs₂, hcs, _, _⟩ := stripSub_word_head he hd
            rw [hcs, tryMatch_hash_eq, if_pos hd] at hm
            exact absurd hm (by simp)

/-- Every suffix of the output of the regex-deletion pass is match-free:
re-running `re.sub(r'http\S+|www\S+|@\w+|#\w+', '', ·)` on its own output
deletes nothing. -/
theorem NoMatch_stripSub (s : Str) : NoMatch (stripSub s) :=
  NoMatch_stripSub_aux s.length s le_rfl

theorem words_token_props_aux :
    ∀ (n : Nat) (t : Str), t.length ≤ n → ∀ w ∈ words t,
      w ≠ [] ∧ (∀ c ∈ w, isWs c = false) ∧ List.IsInfix w t := by
  intro n
  induction n with
  | zero =>
    intro t ht w hw
    have : t = [] := List.length_eq_zero.mp (Nat.le_zero.mp ht)
    subst this
    rw [words_nil] at hw
    exact absurd hw (List.not_mem_nil w)
  | succ n ih =>
    intro t ht w hw
    cases t with
    | nil =>
      rw [words_nil] at hw
      exact absurd hw (List.not_mem_nil w)
    | cons c cs =>
      simp only [List.length_cons] at ht
      by_cases hc : isWs c
      · rw [words_cons_ws hc] at hw
        obtain ⟨h1, h2, h3⟩ := ih cs (by omega) w hw
        exact ⟨h1, h2, List.infix_cons h3⟩
      · rw [words_cons_nonws hc] at hw
        rcases List.mem_cons.mp hw with rfl | hw
        · refine ⟨?_, ?_, (List.takeWhile_prefix _).isInfix⟩
          · rw [List.takeWhile_cons_of_pos (by simp [hc])]
            simp
          · intro x hx
            have := List.mem_takeWhile_imp hx
            simpa using this
        · have hlen : (List.dropWhile (fun d => !isWs d) (c :: cs)).length ≤ n := by
            rw [List.dropWhile_cons_of_pos (by simp [hc])]
            have := dropWhile_length_le (fun d => !isWs d) cs
            omega
          obtain ⟨h1, h2, h3⟩ := ih _ hlen w hw
          exact ⟨h1, h2, h3.trans (List.dropWhile_suffix _).isInfix⟩

theorem words_token_props {t w : Str} (hw : w ∈ words t) :
    w ≠ [] ∧ (∀ c ∈ w, isWs c = false) ∧ List.IsInfix w t :=
  words_token_props_aux t.length t le_rfl w hw

theorem spacify_char {z : Str} {c : Char} (h : c ∈ spacify z) :
    isLowerAZ c = true ∨ isWs c = true := by
  obtain ⟨c', _, rfl⟩ := List.mem_map.mp h
  unfold toSpace
  split
  · next h' =>
    rcases (by simpa using h' : isLowerAZ c' = true ∨ isWs c' = true) with h' | h'
    · exact Or.inl h'
    · exact Or.inr h'
  · exact Or.inr (by decide)

theorem token_chars_lower {z w : Str} (hw : w ∈ words (spacify z)) :
    ∀ c ∈ w, isLowerAZ c = true := by
  intro c hc
  obtain ⟨_, hnws, hinf⟩ := words_token_props hw
  rcases spacify_char (hinf.subset hc) with h | h
  · exact h
  · rw [hnws c hc] at h
    exact absurd h (by simp)

theorem map_toSpace_letters :
    ∀ {m pat : Str}, m.map toSpace = pat →
      (∀ c ∈ pat, isLowerAZ c = true) → m = pat := by
  intro m
  induction m with
  | nil =>
    intro pat h _
    rw [← h]
    rfl
  | cons a as ih =>
    intro pat h hl
    cases pat with
    | nil => exact absurd h (by simp)
    | cons p ps =>
      simp only [List.map_cons, List.cons.injEq] at h
      obtain ⟨h1, h2⟩ := h
      have hp := hl p (List.mem_cons_self _ _)
      have ha : a = p := by
        unfold toSpace at h1
        split at h1
        · exact h1
        · rw [← h1] at hp
          exact absurd hp (by decide)
      rw [ha, ih h2 (fun c hc => hl c (List.mem_cons_of_mem _ hc))]

theorem infix_spacify_letters {z pat : Str} (h : List.IsInfix pat (spacify z))
    (hl : ∀ c ∈ pat, isLowerAZ c = true) : List.IsInfix pat z := by
  obtain ⟨s, t, he⟩ := h
  obtain ⟨z1, z2, hz, hm1, hm2⟩ := List.map_eq_append_iff.mp he.symm
  obtain ⟨z11, z12, hz1, hm11, hm12⟩ := List.map_eq_append_iff.mp hm1
  have : z12 = pat := map_toSpace_letters hm12 hl
  subst this
  exact ⟨z11, z2, by rw [hz, hz1]⟩

/-- A good token: all lower-case letters, and containing no suffix that
starts with `http` or `www` followed by another character (so the regex
pass cannot fire inside it). -/
def GoodTok (w : Str) : Prop :=
  (∀ c ∈ w, isLowerAZ c = true) ∧
  (∀ d r, ¬ List.IsSuffix ('h' :: 't' :: 't' :: 'p' :: d :: r) w) ∧
  (∀ d r, ¬ List.IsSuffix ('w' :: 'w' :: 'w' :: d :: r) w)

theorem goodTok_of_token {s₀ w : Str}
    (hw : w ∈ words (spacify (stripSub s₀))) : GoodTok w := by
  obtain ⟨_, hnws, hinf⟩ := words_token_props hw
  have hlow : ∀ c ∈ w, isLowerAZ c = true := token_chars_lower hw
  refine ⟨hlow, ?_, ?_⟩
  · intro d r hsuf
    have hpre : List.IsPrefix ('h' :: 't' :: 't' :: 'p' :: [d])
        ('h' :: 't' :: 't' :: 'p' :: d :: r) := ⟨r, rfl⟩
    have hpatw : List.IsInfix ('h' :: 't' :: 't' :: 'p' :: [d]) w :=
      hpre.isInfix.trans hsuf.isInfix
    have hl5 : ∀ c ∈ ('h' :: 't' :: 't' :: 'p' :: [d]), isLowerAZ c = true :=
      fun c hc => hlow c (hpatw.subset hc)
    have hz : List.IsInfix ('h' :: 't' :: 't' :: 'p' :: [d]) (stripSub s₀) :=
      infix_spacify_letters (hpatw.trans hinf) hl5
    obtain ⟨l, rr, he⟩ := hz
    have hsuf2 : List.IsSuffix (('h' :: 't' :: 't' :: 'p' :: [d]) ++ rr)
        (stripSub s₀) := ⟨l, by rw [← he, List.append_assoc]⟩
    have hnm := NoMatch_stripSub s₀ _ hsuf2
    have hdws : isWs d = false := not_ws_of_lower (hl5 d (by simp))
    rw [show ('h' :: 't' :: 't' :: 'p' :: [d]) ++ rr
        = 'h' :: 't' :: 't' :: 'p' :: d :: rr from rfl,
      tryMatch_http_eq, if_neg (by simp [hdws])] at hnm
    exact absurd hnm (by simp)
  · intro d r hsuf
    have hpre : List.IsPrefix ('w' :: 'w' :: 'w' :: [d])
        ('w' :: 'w' :: 'w' :: d :: r) := ⟨r, rfl⟩
    have hpatw : List.IsInfix ('w' :: 'w' :: 'w' :: [d]) w :=
      hpre.isInfix.trans hsuf.isInfix
    have hl4 : ∀ c ∈ ('w' :: 'w' :: 'w' :: [d]), isLowerAZ c = true :=
      fun c hc => hlow c (hpatw.subset hc)
    have hz : List.IsInfix ('w' :: 'w' :: 'w' :: [d]) (stripSub s₀) :=
      infix_spacify_letters (hpatw.trans hinf) hl4
    obtain ⟨l, rr, he⟩ := hz
    have hsuf2 : List.IsSuffix (('w' :: 'w' :: 'w' :: [d]) ++ rr)
        (stripSub s₀) := ⟨l, by rw [← he, List.append_assoc]⟩
    have hnm := NoMatch_stripSub s₀ _ hsuf2
    have hdws : isWs d = false := not_ws_of_lower (hl4 d (by simp))
    rw [show ('w' :: 'w' :: 'w' :: [d]) ++ rr
        = 'w' :: 'w' :: 'w' :: d :: rr from rfl,
      tryMatch_www_eq, if_neg (by simp [hdws])] at hnm
    exact absurd hnm (by simp)

theorem suffix_append_cases {u a b : Str} (h : List.IsSuffix u (a ++ b)) :
    List.IsSuffix u b ∨ ∃ u₁, List.IsSuffix u₁ a ∧ u₁ ≠ [] ∧ u = u₁ ++ b := by
  obtain ⟨t, ht⟩ := h
  rcases List.append_eq_append_iff.mp ht with ⟨a', ha, hb⟩ | ⟨c', _, hd⟩
  · rcases a' with _ | ⟨x, xs⟩
    · left
      rw [hb]
      exact List.suffix_rfl
    · right
      exact ⟨x :: xs, ⟨t, ha.symm⟩, by simp, hb⟩
  · left
    exact ⟨c', hd.symm⟩

theorem NoMatch_joinSp :
    ∀ (ws : List Str), (∀ w ∈ ws, GoodTok w) → NoMatch (joinSp ws) := by
  intro ws
  induction ws with
  | nil => intro _; exact NoMatch_nil
  | cons w ws ih =>
    intro hall
    have hgw := hall w (List.mem_cons_self _ _)
    cases ws with
    | nil =>
      show NoMatch w
      intro u hu
      cases hm : tryMatch u with
      | none => rfl
      | some r =>
        exfalso
        rcases tryMatch_some_shape hm with ⟨d, t', he, _⟩ | ⟨d, t', he, _⟩ |
          ⟨d, t', he, _⟩ | ⟨d, t', he, _⟩
        · exact hgw.2.1 d t' (he ▸ hu)
        · exact hgw.2.2 d t' (he ▸ hu)
        · have hm' : '@' ∈ w := hu.subset (he ▸ List.mem_cons_self _ _)
          exact absurd (hgw.1 '@' hm') (by decide)
        · have hm' : '#' ∈ w := hu.subset (he ▸ List.mem_cons_self _ _)
          exact absurd (hgw.1 '#' hm') (by decide)
    | cons w₂ ws₂ =>
      have hrest : NoMatch (joinSp (w₂ :: ws₂)) :=
        ih (fun x hx => hall x (List.mem_cons_of_mem _ hx))
      show NoMatch (w ++ ' ' :: joinSp (w₂ :: ws₂))
      intro u hu
      rcases suffix_append_cases hu with hu | ⟨u₁, hu₁, hne, rfl⟩
      · rcases List.suffix_cons_iff.mp hu with rfl | hu
        · exact tryMatch_none_of_head _ (by decide) (by decide) (by decide) (by decide)
        · exact hrest u hu
      · cases hm : tryMatch (u₁ ++ ' ' :: joinSp (w₂ :: ws₂)) with
        | none => rfl
        | some r =>
          exfalso
          rcases tryMatch_some_shape hm with ⟨d, t', he, hd⟩ | ⟨d, t', he, hd⟩ |
            ⟨d, t', he, hd⟩ | ⟨d, t', he, hd⟩
          · rcases u₁ with _ | ⟨a1, _ | ⟨a2, _ | ⟨a3, _ | ⟨a4, _ | ⟨a5, u6⟩⟩⟩⟩⟩
            · exact hne rfl
            · simp at he
            · simp at he
            · simp at he
            · simp only [List.cons_append, List.nil_append,
                List.cons.injEq] at he
              obtain ⟨_, _, _, _, hd5, _⟩ := he
              rw [← hd5] at hd
              exact absurd hd (by decide)
            · simp only [List.cons_append, List.cons.injEq] at he
              obtain ⟨h1, h2, h3, h4, h5, _⟩ := he
              rw [h1, h2, h3, h4, h5] at hu₁
              exact hgw.2.1 d u6 hu₁
          · rcases u₁ with _ | ⟨a1, _ | ⟨a2, _ | ⟨a3, _ | ⟨a4, u5⟩⟩⟩⟩
            · exact hne rfl
            · simp at he
            · simp at he
            · simp only [List.cons_append, List.nil_append,
                List.cons.injEq] at he
              obtain ⟨_, _, _, hd4, _⟩ := he
              rw [← hd4] at hd
              exact absurd hd (by decide)
            · simp only [List.cons_append, List.cons.injEq] at he
              obtain ⟨h1, h2, h3, h4, _⟩ := he
              rw [h1, h2, h3, h4] at hu₁
              exact hgw.2.2 d u5 hu₁
          · rcases u₁ with _ | ⟨x, xs⟩
            · exact hne rfl
            · simp only [List.cons_append, List.cons.injEq] at he
              have hx : x ∈ w := hu₁.subset (List.mem_cons_self _ _)
              rw [he.1] at hx
              exact absurd (hgw.1 '@' hx) (by decide)
          · rcases u₁ with _ | ⟨x, xs⟩
            · exact hne rfl
            · simp only [List.cons_append, List.cons.injEq] at he
              have hx : x ∈ w := hu₁.subset (List.mem_cons_self _ _)
              rw [he.1] at hx
              exact absurd (hgw.1 '#' hx) (by decide)

theorem mem_joinSp :
    ∀ {ws : List Str} {c : Char}, c ∈ joinSp ws →
      (∃ w ∈ ws, c ∈ w) ∨ c = ' ' := by
  intro ws
  induction ws with
  | nil => intro c hc; exact absurd hc (List.not_mem_nil c)
  | cons w ws ih =>
    intro c hc
    cases ws with
    | nil => exact Or.inl ⟨w, List.mem_cons_self _ _, hc⟩
    | cons w₂ ws₂ =>
      have hc' : c ∈ w ++ ' ' :: joinSp (w₂ :: ws₂) := hc
      rcases List.mem_append.mp hc' with h | h
      · exact Or.inl ⟨w, List.mem_cons_self _ _, h⟩
      · rcases List.mem_cons.mp h with rfl | h
        · exact Or.inr rfl
        · rcases ih h with ⟨w', hw', hcw⟩ | h
          · exact Or.inl ⟨w', List.mem_cons_of_mem _ hw', hcw⟩
          · exact Or.inr h

theorem lowerChar_fix {c : Char} (h : isLowerAZ c = true ∨ c = ' ') :
    lowerChar c = c := by
  rcases h with h | rfl
  · unfold lowerChar
    rw [if_neg]
    intro hc
    have h2 : c ≤ 'Z' := (by simpa using hc : 'A' ≤ c ∧ c ≤ 'Z').2
    have h3 : 'a' ≤ c := (by simpa [isLowerAZ] using h : 'a' ≤ c ∧ c ≤ 'z').1
    exact absurd (le_trans h3 h2) (by decide)
  · decide

theorem toSpace_fix {c : Char} (h : isLowerAZ c = true ∨ c = ' ') :
    toSpace c = c := by
  rcases h with h | rfl
  · unfold toSpace
    rw [if_pos (by simp [h])]
  · decide

theorem map_id_of_fix {f : Char → Char} :
    ∀ {l : Str}, (∀ c ∈ l, f c = c) → l.map f = l := by
  intro l
  induction l with
  | nil => intro _; rfl
  | cons a as ih =>
    intro h
    rw [List.map_cons, h a (List.mem_cons_self _ _),
      ih (fun c hc => h c (List.mem_cons_of_mem _ hc))]

theorem takeWhile_all_append {p : Char → Bool} :
    ∀ (w rest : Str), (∀ c ∈ w, p c = true) →
      (w ++ rest).takeWhile p = w ++ rest.takeWhile p
      ∧ (w ++ rest).dropWhile p = rest.dropWhile p := by
  intro w
  induction w with
  | nil => intro rest _; exact ⟨rfl, rfl⟩
  | cons a as ih =>
    intro rest hall
    have ha := hall a (List.mem_cons_self _ _)
    have ih' := ih rest (fun c hc => hall c (List.mem_cons_of_mem _ hc))
    constructor
    · rw [List.cons_append, List.takeWhile_cons_of_pos ha, ih'.1, List.cons_append]
    · rw [List.cons_append, List.dropWhile_cons_of_pos ha, ih'.2]

theorem words_joinSp :
    ∀ (ws : List Str), (∀ w ∈ ws, w ≠ [] ∧ ∀ c ∈ w, isWs c = false) →
      words (joinSp ws) = ws := by
  intro ws
  induction ws with
  | nil => intro _; exact words_nil
  | cons w ws ih =>
    intro hall
    obtain ⟨hne, hch⟩ := hall w (List.mem_cons_self _ _)
    have hp : ∀ x ∈ w, (fun d => !isWs d) x = true := by
      intro x hx
      simp [hch x hx]
    cases ws with
    | nil =>
      show words w = [w]
      cases w with
      | nil => exact absurd rfl hne
      | cons c cs =>
        rw [words_cons_nonws (by simp [hch c (List.mem_cons_self _ _)])]
        have h2 := takeWhile_all_append (c :: cs) [] hp
        simp only [List.append_nil, List.takeWhile_nil, List.dropWhile_nil] at h2
        rw [h2.1, h2.2, words_nil]
    | cons w₂ ws₂ =>
      show words (w ++ ' ' :: joinSp (w₂ :: ws₂)) = w :: w₂ :: ws₂
      have h2 := takeWhile_all_append w (' ' :: joinSp (w₂ :: ws₂)) hp
      rw [List.takeWhile_cons_of_neg (by decide),
        List.dropWhile_cons_of_neg (by decide), List.append_nil] at h2
      cases w with
      | nil => exact absurd rfl hne
      | cons c cs =>
        rw [List.cons_append,
          words_cons_nonws (by simp [hch c (List.mem_cons_self _ _)]),
          ← List.cons_append, h2.1, h2.2,
          words_cons_ws (by decide),
          ih (fun x hx => hall x (List.mem_cons_of_mem _ hx))]

/-- C2: the normalizer is idempotent — applying `clean_text_fast` to its
own output returns that output unchanged, for every raw input string: the
output is lower-case letters and single spaces, every surviving token
passes the stopword/length filter, and no position of the output matches
the URL/mention/hashtag alternation again. -/
theorem C2_normalizer_idempotent (s : Str) :
    clean_text_fast (clean_text_fast s) = clean_text_fast s := by
  by_cases hs : s = []
  · subst hs; rfl
  · have hy : clean_text_fast s =
        joinSp ((words (spacify (stripSub (lowerStr s)))).filter keepTok) := by
      rw [clean_text_fast, if_neg hs]
    set ws := (words (spacify (stripSub (lowerStr s)))).filter keepTok with hwsdef
    rw [hy]
    by_cases hyz : joinSp ws = []
    · rw [hyz]; rfl
    · rw [clean_text_fast, if_neg hyz]
      have htokprops : ∀ w ∈ ws, GoodTok w := fun w hw =>
        goodTok_of_token (List.mem_of_mem_filter (hwsdef ▸ hw))
      have hylower : ∀ c ∈ joinSp ws, isLowerAZ c = true ∨ c = ' ' := by
        intro c hc
        rcases mem_joinSp hc with ⟨w, hw, hcw⟩ | rfl
        · exact Or.inl ((htokprops w hw).1 c hcw)
        · exact Or.inr rfl
      have h1 : lowerStr (joinSp ws) = joinSp ws :=
        map_id_of_fix (fun c hc => lowerChar_fix (hylower c hc))
      have h2 : stripSub (joinSp ws) = joinSp ws :=
        stripSub_eq_self (NoMatch_joinSp ws htokprops)
      have h3 : spacify (joinSp ws) = joinSp ws :=
        map_id_of_fix (fun c hc => toSpace_fix (hylower c hc))
      have h4 : words (joinSp ws) = ws :=
        words_joinSp ws (fun w hw =>
          ⟨(words_token_props (List.mem_of_mem_filter (hwsdef ▸ hw))).1,
           (words_token_props (List.mem_of_mem_filter (hwsdef ▸ hw))).2.1⟩)
      have h5 : ws.filter keepTok = ws :=
        List.filter_eq_self.mpr (fun w hw => List.of_mem_filter (hwsdef ▸ hw))
      rw [h1, h2, h3, h4, h5]

end SMSA
